import Mathlib

/-!
A shallow embedding of src/orchestrate_intent.py: the ledger reader
(read_jsonl_file), the plan selector (select_best_plan, called select_best
on already-read records), the stage runner (run_entrypoint) and the
orchestrator (main, embedded as runMain), with theorems checking the
specification's claims about them.
-/

namespace OrchestrateIntent

/-- A JSON object on one line of the plans ledger, as the selector sees it.
Only the four fields the code reads are modelled; each is optional because a
JSON object may lack it (Python dict access: .get returns None, [] raises
KeyError). The numeric fields are modelled as rationals. -/
structure PlanRecord where
  intent_id : Option String
  plan_id : Option String
  p_success : Option ℚ
  entropy : Option ℚ
deriving DecidableEq, Repr

/-- One line of a JSONL file: blank (line.strip() is empty), a line parsing
to a plan record, or a line json.loads raises on. -/
inductive LedgerLine where
  | blank : LedgerLine
  | record : PlanRecord → LedgerLine
  | malformed : LedgerLine
deriving DecidableEq, Repr

/-- The file system the reader sees: a path maps to the lines of the file
there, or to none when the path does not exist. -/
def FS : Type := String → Option (List LedgerLine)

/-- The errors a run can raise, named after the Python exceptions the source
raises: keyError is a KeyError from a missing dict key, noCandidates the
ValueError raised when no plans match the intent, decodeFailure a
json.JSONDecodeError raised by json.loads on a malformed line. -/
inductive RunError where
  | keyError : RunError
  | noCandidates : String → RunError
  | decodeFailure : RunError
deriving DecidableEq, Repr

/-- The list comprehension in read_jsonl_file: json.loads over every line
whose strip() is non-empty, in file order; a malformed line raises. -/
def parseLines : List LedgerLine → Except RunError (List PlanRecord)
  | [] => .ok []
  | .blank :: rest => parseLines rest
  | .malformed :: _ => .error .decodeFailure
  | .record r :: rest =>
    match parseLines rest with
    | .error e => .error e
    | .ok rs => .ok (r :: rs)

/-- read_jsonl_file: returns the empty list when the path does not exist,
otherwise parses every non-blank line, preserving file order. -/
def read_jsonl_file (fs : FS) (filepath : String) : Except RunError (List PlanRecord) :=
  match fs filepath with
  | none => .ok []
  | some lines => parseLines lines

/-- The filter inside select_best_plan: the plans whose intent_id matches
the target. A record without the field yields none via .get, which never
equals the string target, so it is dropped here. -/
def candidates (plans : List PlanRecord) (intent_id : String) : List PlanRecord :=
  plans.filter (fun p => p.intent_id == some intent_id)

/-- The selector's key function, the lambda p: p['p_success'] - p['entropy'];
it raises KeyError when either field is missing. -/
def planScore (p : PlanRecord) : Except RunError ℚ :=
  match p.p_success with
  | none => .error .keyError
  | some ps =>
    match p.entropy with
    | none => .error .keyError
    | some e => .ok (ps - e)

/-- Python's max over the remaining candidates, carrying the best record and
its key so far: a later record replaces the incumbent only when its key is
strictly greater, so of records with equal keys the first wins. The key is
computed for every element in order; a KeyError aborts the whole max. -/
def pyMaxGo (best : PlanRecord × ℚ) : List PlanRecord → Except RunError (PlanRecord × ℚ)
  | [] => .ok best
  | p :: rest =>
    match planScore p with
    | .error e => .error e
    | .ok s => if best.2 < s then pyMaxGo (p, s) rest else pyMaxGo best rest

/-- The record-level body of select_best_plan (section 4.2 of the spec calls
it select_best): filter to the target intent, raise when no candidate
remains, take the max by p_success - entropy, return the best record's
plan_id. -/
def select_best (plans : List PlanRecord) (intent_id : String) : Except RunError String :=
  match candidates plans intent_id with
  | [] => .error (.noCandidates intent_id)
  | f :: rest =>
    match planScore f with
    | .error e => .error e
    | .ok s =>
      match pyMaxGo (f, s) rest with
      | .error e => .error e
      | .ok best =>
        match best.1.plan_id with
        | none => .error .keyError
        | some pid => .ok pid

/-- select_best_plan: read the plans file, then select on the records. -/
def select_best_plan (fs : FS) (plans_file : String) (intent_id : String) :
    Except RunError String :=
  match read_jsonl_file fs plans_file with
  | .error e => .error e
  | .ok plans => select_best plans intent_id

/-- os.path.exists as a state operation on the file system: a read, so the
file system comes back unchanged. -/
def fsExists (fs : FS) (filepath : String) : Bool × FS := ((fs filepath).isSome, fs)

/-- Opening a file for reading as a state operation: a read, so the file
system comes back unchanged. -/
def fsRead (fs : FS) (filepath : String) : Option (List LedgerLine) × FS :=
  (fs filepath, fs)

/-- read_jsonl_file with the file system threaded explicitly through each
file operation the code performs (os.path.exists, then open for reading):
the code has no write operation to thread. -/
def read_jsonl_file_st (fs : FS) (filepath : String) :
    Except RunError (List PlanRecord) × FS :=
  let (ex, fs1) := fsExists fs filepath
  if ex then
    let (content, fs2) := fsRead fs1 filepath
    match content with
    | none => (.ok [], fs2)
    | some lines => (parseLines lines, fs2)
  else (.ok [], fs1)

/-- select_best_plan with the file system threaded explicitly. -/
def select_best_plan_st (fs : FS) (plans_file : String) (intent_id : String) :
    Except RunError String × FS :=
  let (r, fs1) := read_jsonl_file_st fs plans_file
  match r with
  | .error e => (.error e, fs1)
  | .ok plans => (select_best plans intent_id, fs1)

/-- What subprocess.run returns for one stage invocation. -/
structure StageResult where
  returncode : Int
  stdout : String
  stderr : String

/-- The failure run_entrypoint reports before exiting: the failing script's
name and its captured standard error (section 4.3 of the spec calls this
StageFailedError). -/
structure StageFailure where
  stage : String
  stderr : String
deriving DecidableEq, Repr

/-- run_entrypoint: run the named entrypoint script with the given
arguments (the constant command decoration bash entrypoints/ is dropped;
the external world is keyed by script name and arguments), fail with the
script name and the captured stderr on a non-zero exit status, otherwise
return the captured stdout. -/
def run_entrypoint (stages : String → List String → StageResult)
    (script_name : String) (args : List String) : Except StageFailure String :=
  let result := stages script_name args
  if result.returncode ≠ 0 then .error ⟨script_name, result.stderr⟩
  else .ok result.stdout

/-- The intent descriptor json.load returns from the intent file; only
intent_id is read, and the JSON object may lack it. -/
structure IntentData where
  intent_id : Option String
deriving DecidableEq, Repr

/-- The external world main runs against: each stage script's behaviour,
the parsed intent file (none when the file cannot be opened or parsed), the
file system holding the plans ledger, and the directories that exist. -/
structure Env where
  stages : String → List String → StageResult
  intentFile : Option IntentData
  fs : FS
  dirs : List String

/-- The observable steps of a run, in order. -/
inductive Event where
  | mkdir : String → Event
  | readIntent : String → Event
  | stage : String → List String → Event
deriving DecidableEq, Repr

/-- The stage invocations of a trace, in order. -/
def stagesOf (trace : List Event) : List (String × List String) :=
  trace.filterMap (fun e => match e with
    | .stage n a => some (n, a)
    | _ => none)

/-- Path(ledger_dir).mkdir(parents=True) touches the missing ancestors (the
proper prefixes of the path along the separator) and then the directory
itself, in that order. -/
def pathPrefixes (path : String) : List String :=
  let parts := path.splitOn "/"
  ((List.range (parts.length - 1)).map
    (fun i => String.intercalate "/" (parts.take (i + 1)))) ++ [path]

/-- mkdir with parents=True and exist_ok=True over the set of existing
directories: create each missing prefix in order; a directory that already
exists is left untouched. -/
def mkdirParents (dirs : List String) (path : String) : List String :=
  (pathPrefixes path).foldl (fun ds d => if d ∈ ds then ds else ds ++ [d]) dirs

/-- The part of a main outcome the body after mkdir determines. -/
structure BodyOut where
  trace : List Event
  exitCode : Nat
  stageErr : Option StageFailure
deriving Repr

/-- What a run of main produces: the ordered trace of observable steps, the
process exit status, the stage failure surfaced (when a stage failed), and
the directories existing afterwards. -/
structure MainOutcome where
  trace : List Event
  exitCode : Nat
  stageErr : Option StageFailure
  dirs : List String

/-- The body of main after the ledger directory is created, following the
source line by line: read intent_id (a missing field is an uncaught
KeyError, exit status 1), then intent_creator.sh, then planner.sh, then
plan selection (an uncaught ValueError or KeyError is exit status 1), then
executor.sh; a failing stage ends the run at once with exit status 1. -/
def mainBody (env : Env) (ledger_dir intent_json_file repo_path : String) : BodyOut :=
  match env.intentFile with
  | none => ⟨[], 1, none⟩
  | some intent_data =>
    match intent_data.intent_id with
    | none => ⟨[Event.readIntent intent_json_file], 1, none⟩
    | some intent_id =>
      let t1 := [Event.readIntent intent_json_file,
                 Event.stage "intent_creator.sh" [ledger_dir, intent_json_file]]
      match run_entrypoint env.stages "intent_creator.sh" [ledger_dir, intent_json_file] with
      | .error e => ⟨t1, 1, some e⟩
      | .ok _ =>
        let t2 := t1 ++ [Event.stage "planner.sh" [ledger_dir, intent_id, "bootstrap-planner"]]
        match run_entrypoint env.stages "planner.sh" [ledger_dir, intent_id, "bootstrap-planner"] with
        | .error e => ⟨t2, 1, some e⟩
        | .ok _ =>
          match select_best_plan env.fs (ledger_dir ++ "/plans.jsonl") intent_id with
          | .error _ => ⟨t2, 1, none⟩
          | .ok best_plan =>
            let t3 := t2 ++ [Event.stage "executor.sh" [ledger_dir, intent_id, best_plan, repo_path]]
            match run_entrypoint env.stages "executor.sh" [ledger_dir, intent_id, best_plan, repo_path] with
            | .error e => ⟨t3, 1, some e⟩
            | .ok _ => ⟨t3, 0, none⟩

/-- main: usage check on the argument vector (program name plus exactly
three arguments, else exit status 1 with nothing run), create the ledger
directory with parents, then run the body. -/
def runMain (env : Env) (argv : List String) : MainOutcome :=
  match argv with
  | [_, ledger_dir, intent_json_file, repo_path] =>
    let body := mainBody env ledger_dir intent_json_file repo_path
    ⟨Event.mkdir ledger_dir :: body.trace, body.exitCode, body.stageErr,
      mkdirParents env.dirs ledger_dir⟩
  | _ => ⟨[], 1, none, env.dirs⟩

/-- A plan record carrying every field the selector reads beyond the intent
reference: the data model of section 3 of the spec. -/
def wellFormed (p : PlanRecord) : Prop :=
  p.plan_id.isSome = true ∧ p.p_success.isSome = true ∧ p.entropy.isSome = true

/-- The expected-value score of a well-formed record, as a total function. -/
def score (p : PlanRecord) : ℚ := p.p_success.getD 0 - p.entropy.getD 0

theorem planScore_of_wf (p : PlanRecord) (h : wellFormed p) :
    planScore p = .ok (score p) := by
  obtain ⟨-, h2, h3⟩ := h
  obtain ⟨ps, hps⟩ := Option.isSome_iff_exists.mp h2
  obtain ⟨e, he⟩ := Option.isSome_iff_exists.mp h3
  simp [planScore, score, hps, he]

theorem planScore_err (p : PlanRecord) (e : RunError) (h : planScore p = .error e) :
    e = RunError.keyError := by
  unfold planScore at h
  rcases hps : p.p_success with _ | ps <;> rcases he : p.entropy with _ | ev <;>
    simp [hps, he] at h <;> exact h.symm

theorem pyMaxGo_spec (l : List PlanRecord) (p : PlanRecord)
    (hl : ∀ q ∈ l, planScore q = .ok (score q)) :
    ∃ b, pyMaxGo (p, score p) l = .ok (b, score b) ∧ (b = p ∨ b ∈ l) ∧
      score p ≤ score b ∧ ∀ q ∈ l, score q ≤ score b := by
  induction l generalizing p with
  | nil => exact ⟨p, rfl, Or.inl rfl, le_refl _, by simp⟩
  | cons q l ih =>
    have hq : planScore q = .ok (score q) := hl q (by simp)
    have hl2 : ∀ r ∈ l, planScore r = .ok (score r) := fun r hr => hl r (by simp [hr])
    by_cases hlt : score p < score q
    · obtain ⟨b, hb, hmem, hle, hall⟩ := ih q hl2
      refine ⟨b, ?_, ?_, ?_, ?_⟩
      · simpa [pyMaxGo, hq, hlt] using hb
      · rcases hmem with h | h
        · exact Or.inr (by simp [h])
        · exact Or.inr (by simp [h])
      · exact le_of_lt (lt_of_lt_of_le hlt hle)
      · intro r hr
        rcases List.mem_cons.mp hr with h | h
        · exact h ▸ hle
        · exact hall r h
    · obtain ⟨b, hb, hmem, hle, hall⟩ := ih p hl2
      refine ⟨b, ?_, ?_, ?_, ?_⟩
      · simpa [pyMaxGo, hq, hlt] using hb
      · rcases hmem with h | h
        · exact Or.inl h
        · exact Or.inr (by simp [h])
      · exact hle
      · intro r hr
        rcases List.mem_cons.mp hr with h | h
        · exact h ▸ le_trans (not_lt.mp hlt) hle
        · exact hall r h

theorem pyMaxGo_const (l : List PlanRecord) (b : PlanRecord) (s : ℚ)
    (hl : ∀ q ∈ l, planScore q = .ok (score q)) (hle : ∀ q ∈ l, score q ≤ s) :
    pyMaxGo (b, s) l = .ok (b, s) := by
  induction l with
  | nil => rfl
  | cons q l ih =>
    have hq := hl q (by simp)
    have hns : ¬ s < score q := not_lt.mpr (hle q (by simp))
    simp only [pyMaxGo, hq, hns, if_false]
    exact ih (fun r hr => hl r (by simp [hr])) (fun r hr => hle r (by simp [hr]))

theorem pyMaxGo_reach (l₁ : List PlanRecord) (p : PlanRecord) (l₂ : List PlanRecord)
    (hp : planScore p = .ok (score p))
    (h₂ : ∀ q ∈ l₂, planScore q = .ok (score q) ∧ score q ≤ score p) :
    ∀ (b : PlanRecord) (s : ℚ), (∀ q ∈ l₁, planScore q = .ok (score q) ∧ score q < score p) →
      s < score p → pyMaxGo (b, s) (l₁ ++ p :: l₂) = .ok (p, score p) := by
  induction l₁ with
  | nil =>
    intro b s _ hs
    simp only [List.nil_append, pyMaxGo, hp, hs, if_true]
    exact pyMaxGo_const l₂ p (score p) (fun q hq => (h₂ q hq).1) (fun q hq => (h₂ q hq).2)
  | cons q l₁ ih =>
    intro b s h₁ hs
    obtain ⟨hq, hqlt⟩ := h₁ q (by simp)
    have h₁r : ∀ r ∈ l₁, planScore r = .ok (score r) ∧ score r < score p :=
      fun r hr => h₁ r (by simp [hr])
    by_cases hlt : s < score q
    · simp only [List.cons_append, pyMaxGo, hq, hlt, if_true]
      exact ih (q, score q).1 (q, score q).2 h₁r hqlt
    · simp only [List.cons_append, pyMaxGo, hq, hlt, if_false]
      exact ih b s h₁r hs

theorem pyMaxGo_err (l : List PlanRecord) (q : PlanRecord)
    (he : planScore q = .error RunError.keyError) :
    ∀ b : PlanRecord × ℚ, q ∈ l → pyMaxGo b l = .error RunError.keyError := by
  induction l with
  | nil => intro b hq; cases hq
  | cons r l ih =>
    intro b hq
    rcases List.mem_cons.mp hq with h | h
    · subst h; simp [pyMaxGo, he]
    · rcases hr : planScore r with e | s
      · have := planScore_err r e hr
        subst this
        simp [pyMaxGo, hr]
      · simp only [pyMaxGo, hr]
        by_cases hlt : b.2 < s
        · simp only [hlt, if_true]; exact ih (r, s) h
        · simp only [hlt, if_false]; exact ih b h

/-- C1: for every non-empty list of plan records all carrying the target
intent_id (and the fields the selector reads), select_best returns the
plan_id of a record of the list whose score p_success - entropy is at least
the score of every record of the list. -/
theorem C1_select_best_returns_max (plans : List PlanRecord) (intent_id : String)
    (hne : plans ≠ [])
    (hall : ∀ p ∈ plans, p.intent_id = some intent_id)
    (hwf : ∀ p ∈ plans, wellFormed p) :
    ∃ p ∈ plans, (∃ pid, p.plan_id = some pid ∧ select_best plans intent_id = .ok pid) ∧
      ∀ q ∈ plans, score q ≤ score p := by
  have hc : candidates plans intent_id = plans := by
    unfold candidates
    exact List.filter_eq_self.mpr (fun p hp => by simp [hall p hp])
  rcases hplans : plans with _ | ⟨f, rest⟩
  · exact absurd hplans hne
  subst hplans
  have hf : planScore f = .ok (score f) := planScore_of_wf f (hwf f (by simp))
  obtain ⟨b, hb, hmem, hle, hallb⟩ :=
    pyMaxGo_spec rest f (fun q hq => planScore_of_wf q (hwf q (by simp [hq])))
  have hbmem : b ∈ f :: rest := by
    rcases hmem with h | h
    · simp [h]
    · simp [h]
  obtain ⟨pid, hpid⟩ := Option.isSome_iff_exists.mp (hwf b hbmem).1
  refine ⟨b, hbmem, ⟨pid, hpid, ?_⟩, ?_⟩
  · simp [select_best, hc, hf, hb, hpid]
  · intro q hq
    rcases List.mem_cons.mp hq with h | h
    · exact h ▸ hle
    · exact hallb q h

/-- C1 witness at one concrete record list. -/
theorem C1_select_best_returns_max_witness :
    ∃ p ∈ [(⟨some "i1", some "p1", some 1, some 0⟩ : PlanRecord)],
      (∃ pid, p.plan_id = some pid ∧
        select_best [(⟨some "i1", some "p1", some 1, some 0⟩ : PlanRecord)] "i1" = .ok pid) ∧
      ∀ q ∈ [(⟨some "i1", some "p1", some 1, some 0⟩ : PlanRecord)], score q ≤ score p :=
  C1_select_best_returns_max [⟨some "i1", some "p1", some 1, some 0⟩] "i1"
    (by simp) (by simp) (by simp [wellFormed])

/-- C2: when the candidates for the target intent split as earlier ones of
strictly smaller score, a record p, and later ones of score at most p's,
select_best returns p's plan_id: on ties the earliest candidate in ledger
order wins. -/
theorem C2_tie_first_in_ledger_order (plans : List PlanRecord) (intent_id : String)
    (l₁ : List PlanRecord) (p : PlanRecord) (l₂ : List PlanRecord) (pid : String)
    (hwf : ∀ q ∈ candidates plans intent_id, wellFormed q)
    (hsplit : candidates plans intent_id = l₁ ++ p :: l₂)
    (h₁ : ∀ q ∈ l₁, score q < score p)
    (h₂ : ∀ q ∈ l₂, score q ≤ score p)
    (hpid : p.plan_id = some pid) :
    select_best plans intent_id = .ok pid := by
  have hwf2 : ∀ q ∈ l₁ ++ p :: l₂, wellFormed q := hsplit ▸ hwf
  have hp : planScore p = .ok (score p) := planScore_of_wf p (hwf2 p (by simp))
  have h₂s : ∀ q ∈ l₂, planScore q = .ok (score q) ∧ score q ≤ score p :=
    fun q hq => ⟨planScore_of_wf q (hwf2 q (by simp [hq])), h₂ q hq⟩
  rcases hl₁ : l₁ with _ | ⟨f, l₁t⟩
  · subst hl₁
    simp only [List.nil_append] at hsplit
    have := pyMaxGo_const l₂ p (score p) (fun q hq => (h₂s q hq).1) (fun q hq => (h₂s q hq).2)
    simp [select_best, hsplit, hp, this, hpid]
  · subst hl₁
    have hfwf : wellFormed f := hwf2 f (by simp)
    have hf : planScore f = .ok (score f) := planScore_of_wf f hfwf
    have h₁s : ∀ q ∈ l₁t, planScore q = .ok (score q) ∧ score q < score p :=
      fun q hq => ⟨planScore_of_wf q (hwf2 q (by simp [hq])), h₁ q (by simp [hq])⟩
    have hflt : score f < score p := h₁ f (by simp)
    have := pyMaxGo_reach l₁t p l₂ hp h₂s f (score f) h₁s hflt
    simp only [List.cons_append] at hsplit
    simp [select_best, hsplit, hf, this, hpid]

/-- C2 witness: two candidates with equal scores; the first wins. -/
theorem C2_tie_first_in_ledger_order_witness :
    select_best [(⟨some "i1", some "p1", some 1, some 0⟩ : PlanRecord),
      ⟨some "i1", some "p2", some 1, some 0⟩] "i1" = .ok "p1" :=
  C2_tie_first_in_ledger_order
    [⟨some "i1", some "p1", some 1, some 0⟩, ⟨some "i1", some "p2", some 1, some 0⟩]
    "i1" [] ⟨some "i1", some "p1", some 1, some 0⟩
    [⟨some "i1", some "p2", some 1, some 0⟩] "p1"
    (by simp [candidates, wellFormed]) (by simp [candidates]) (by simp)
    (by simp [score]) rfl

/-- C3: records of other intents never influence the result: selecting over
A followed by B, where every record of A carries the target intent_id and
none of B does, equals selecting over A alone. -/
theorem C3_other_intents_no_influence (A B : List PlanRecord) (intent_id : String)
    (_hA : ∀ p ∈ A, p.intent_id = some intent_id)
    (hB : ∀ p ∈ B, p.intent_id ≠ some intent_id) :
    select_best (A ++ B) intent_id = select_best A intent_id := by
  have h1 : candidates (A ++ B) intent_id = candidates A intent_id := by
    unfold candidates
    rw [List.filter_append]
    have hBnil : B.filter (fun p => p.intent_id == some intent_id) = [] :=
      List.filter_eq_nil_iff.mpr (fun p hp => by simp [hB p hp])
    simp [hBnil]
  unfold select_best
  rw [h1]

/-- C3 witness at concrete record lists. -/
theorem C3_other_intents_no_influence_witness :
    select_best ([(⟨some "i1", some "p1", some 1, some 0⟩ : PlanRecord)] ++
      [⟨some "i2", some "p9", some 1, some 0⟩]) "i1" =
    select_best [(⟨some "i1", some "p1", some 1, some 0⟩ : PlanRecord)] "i1" :=
  C3_other_intents_no_influence [⟨some "i1", some "p1", some 1, some 0⟩]
    [⟨some "i2", some "p9", some 1, some 0⟩] "i1" (by simp) (by simp)

/-- C4 counterexample: a record missing intent_id in the ledger does not
make the run fail with a malformed-record error; it is silently excluded
from candidacy and selection succeeds on the remaining record. -/
theorem C4_counterexample :
    select_best [(⟨none, some "p1", some 1, some 0⟩ : PlanRecord),
      ⟨some "i1", some "p2", some 1, some 0⟩] "i1" = .ok "p2" := by
  simp [select_best, candidates, planScore, pyMaxGo]

/-- C4 amended: a candidate record (one whose intent_id matches the target)
missing p_success or entropy makes the run fail with a KeyError; records
missing intent_id are silently excluded from candidacy instead of failing. -/
theorem C4_missing_numeric_field_fails (plans : List PlanRecord) (intent_id : String)
    (p : PlanRecord) (hp : p ∈ candidates plans intent_id)
    (hmiss : p.p_success = none ∨ p.entropy = none) :
    select_best plans intent_id = .error RunError.keyError := by
  have hpe : planScore p = .error RunError.keyError := by
    rcases hmiss with h | h
    · simp [planScore, h]
    · cases hps : p.p_success <;> simp [planScore, h, hps]
  rcases hc : candidates plans intent_id with _ | ⟨f, rest⟩
  · rw [hc] at hp; cases hp
  · rw [hc] at hp
    rcases List.mem_cons.mp hp with h | h
    · subst h
      simp [select_best, hc, hpe]
    · rcases hf : planScore f with e | s
      · have := planScore_err f e hf
        subst this
        simp [select_best, hc, hf]
      · simp [select_best, hc, hf, pyMaxGo_err rest p hpe (f, s) h]

/-- C4 amended witness: one candidate missing p_success fails the run. -/
theorem C4_missing_numeric_field_fails_witness :
    select_best [(⟨some "i1", some "p1", none, some 0⟩ : PlanRecord)] "i1" =
      .error RunError.keyError :=
  C4_missing_numeric_field_fails [⟨some "i1", some "p1", none, some 0⟩] "i1"
    ⟨some "i1", some "p1", none, some 0⟩ (by simp [candidates]) (Or.inl rfl)

/-- C5: when no record carries the target intent_id (in particular on the
empty ledger), select_best fails with the no-candidates error and returns
no plan_id. -/
theorem C5_no_candidates_fails (plans : List PlanRecord) (intent_id : String)
    (h : ∀ p ∈ plans, p.intent_id ≠ some intent_id) :
    select_best plans intent_id = .error (RunError.noCandidates intent_id) := by
  have hc : candidates plans intent_id = [] := by
    unfold candidates
    exact List.filter_eq_nil_iff.mpr (fun p hp => by simp [h p hp])
  simp [select_best, hc]

/-- C5 witness at the empty ledger. -/
theorem C5_no_candidates_fails_witness :
    select_best [] "i1" = .error (RunError.noCandidates "i1") :=
  C5_no_candidates_fails [] "i1" (by simp)

/-- C7: for every path the file system has no file at, the ledger reader
returns the empty sequence rather than an error. -/
theorem C7_missing_file_empty (fs : FS) (filepath : String)
    (h : fs filepath = none) :
    read_jsonl_file fs filepath = .ok [] := by
  simp [read_jsonl_file, h]

/-- A concrete empty file system for the C7 witness. -/
def fsEmpty : FS := fun _ => none

/-- C7 witness at a concrete file system and path. -/
theorem C7_missing_file_empty_witness :
    read_jsonl_file fsEmpty "ledger/plans.jsonl" = .ok [] :=
  C7_missing_file_empty fsEmpty "ledger/plans.jsonl" rfl

/-- C9: selection is a pure read-plus-compute operation: with the file
system threaded through every file operation the code performs, running
select_best_plan returns the file system unchanged. -/
theorem C9_selection_pure (fs : FS) (plans_file intent_id : String) :
    (select_best_plan_st fs plans_file intent_id).2 = fs := by
  unfold select_best_plan_st read_jsonl_file_st fsExists fsRead
  rcases h : fs plans_file with _ | lines
  · simp [h]
  · simp only [h]
    rcases hp : parseLines lines with e | rs <;> simp [h, hp]

theorem foldl_insert_mem_of_mem (x : String) (ps : List String) (ds : List String)
    (hx : x ∈ ds) :
    x ∈ ps.foldl (fun ds d => if d ∈ ds then ds else ds ++ [d]) ds := by
  induction ps generalizing ds with
  | nil => exact hx
  | cons q ps ih =>
    simp only [List.foldl_cons]
    by_cases hq : q ∈ ds
    · simp only [hq, if_true]
      exact ih ds hx
    · simp only [hq, if_false]
      exact ih (ds ++ [q]) (List.mem_append_left _ hx)

theorem foldl_insert_mem (x : String) (ps : List String) (ds : List String)
    (hx : x ∈ ps) :
    x ∈ ps.foldl (fun ds d => if d ∈ ds then ds else ds ++ [d]) ds := by
  induction ps generalizing ds with
  | nil => cases hx
  | cons q ps ih =>
    rcases List.mem_cons.mp hx with h | h
    · subst h
      simp only [List.foldl_cons]
      by_cases hq : x ∈ ds
      · simp only [hq, if_true]
        exact foldl_insert_mem_of_mem x ps ds hq
      · simp only [hq, if_false]
        exact foldl_insert_mem_of_mem x ps (ds ++ [x]) (by simp)
    · simp only [List.foldl_cons]
      by_cases hq : q ∈ ds
      · simp only [hq, if_true]
        exact ih ds h
      · simp only [hq, if_false]
        exact ih (ds ++ [q]) h

theorem foldl_insert_noop (ps : List String) (ds : List String)
    (h : ∀ d ∈ ps, d ∈ ds) :
    ps.foldl (fun ds d => if d ∈ ds then ds else ds ++ [d]) ds = ds := by
  induction ps with
  | nil => rfl
  | cons q ps ih =>
    have hq : q ∈ ds := h q (by simp)
    simp only [List.foldl_cons, hq, if_true]
    exact ih (fun d hd => h d (by simp [hd]))

theorem mkdirParents_mem (dirs : List String) (path : String) (d : String)
    (hd : d ∈ pathPrefixes path) : d ∈ mkdirParents dirs path :=
  foldl_insert_mem d (pathPrefixes path) dirs hd

theorem mkdirParents_of_all_mem (dirs : List String) (path : String)
    (h : ∀ d ∈ pathPrefixes path, d ∈ dirs) : mkdirParents dirs path = dirs :=
  foldl_insert_noop (pathPrefixes path) dirs h

theorem run_entrypoint_err (stages : String → List String → StageResult)
    (n : String) (a : List String) (e : StageFailure)
    (h : run_entrypoint stages n a = .error e) :
    (stages n a).returncode ≠ 0 ∧ e = ⟨n, (stages n a).stderr⟩ := by
  unfold run_entrypoint at h
  by_cases hrc : (stages n a).returncode ≠ 0
  · rw [if_pos hrc] at h
    injection h with h
    exact ⟨hrc, h.symm⟩
  · rw [if_neg hrc] at h
    simp at h

theorem run_entrypoint_ok_rc (stages : String → List String → StageResult)
    (n : String) (a : List String) (s : String)
    (h : run_entrypoint stages n a = .ok s) :
    (stages n a).returncode = 0 := by
  unfold run_entrypoint at h
  by_cases hrc : (stages n a).returncode ≠ 0
  · rw [if_pos hrc] at h
    simp at h
  · exact not_not.mp hrc

theorem append_cons_eq_one {α : Type} (pre post : List α) (x y : α)
    (h : pre ++ x :: post = [y]) : pre = [] ∧ x = y ∧ post = [] := by
  cases pre with
  | nil =>
    simp only [List.nil_append, List.cons.injEq] at h
    exact ⟨rfl, h.1, h.2⟩
  | cons a pre => simp [List.cons.injEq] at h

theorem append_cons_eq_two {α : Type} (pre post : List α) (x y z : α)
    (h : pre ++ x :: post = [y, z]) :
    (pre = [] ∧ x = y ∧ post = [z]) ∨ (pre = [y] ∧ x = z ∧ post = []) := by
  cases pre with
  | nil =>
    simp only [List.nil_append, List.cons.injEq] at h
    exact Or.inl ⟨rfl, h.1, h.2⟩
  | cons a pre =>
    simp only [List.cons_append, List.cons.injEq] at h
    obtain ⟨hay, h⟩ := h
    obtain ⟨h1, h2, h3⟩ := append_cons_eq_one pre post x z h
    exact Or.inr ⟨by simp [hay, h1], h2, h3⟩

theorem append_cons_eq_three {α : Type} (pre post : List α) (x y z w : α)
    (h : pre ++ x :: post = [y, z, w]) :
    (pre = [] ∧ x = y ∧ post = [z, w]) ∨ (pre = [y] ∧ x = z ∧ post = [w]) ∨
      (pre = [y, z] ∧ x = w ∧ post = []) := by
  cases pre with
  | nil =>
    simp only [List.nil_append, List.cons.injEq] at h
    exact Or.inl ⟨rfl, h.1, h.2⟩
  | cons a pre =>
    simp only [List.cons_append, List.cons.injEq] at h
    obtain ⟨hay, h⟩ := h
    rcases append_cons_eq_two pre post x z w h with ⟨h1, h2, h3⟩ | ⟨h1, h2, h3⟩
    · exact Or.inr (Or.inl ⟨by simp [hay, h1], h2, h3⟩)
    · exact Or.inr (Or.inr ⟨by simp [hay, h1], h2, h3⟩)

/-- C10: on a call with exactly three positional arguments, the ledger
directory and its missing parents are created first, before the intent file
is read and before any stage is invoked (the trace starts with the mkdir
step), and when the directory and its parents already exist the set of
directories is left exactly as it was. -/
theorem C10_mkdir_first (env : Env) (prog ledger_dir intent_file repo : String) :
    (∃ rest, (runMain env [prog, ledger_dir, intent_file, repo]).trace =
        Event.mkdir ledger_dir :: rest) ∧
    (∀ d ∈ pathPrefixes ledger_dir,
        d ∈ (runMain env [prog, ledger_dir, intent_file, repo]).dirs) ∧
    ((∀ d ∈ pathPrefixes ledger_dir, d ∈ env.dirs) →
        (runMain env [prog, ledger_dir, intent_file, repo]).dirs = env.dirs) := by
  refine ⟨⟨(mainBody env ledger_dir intent_file repo).trace, rfl⟩, ?_, ?_⟩
  · exact fun d hd => mkdirParents_mem env.dirs ledger_dir d hd
  · exact fun h => mkdirParents_of_all_mem env.dirs ledger_dir h

/-- C8: when the intent input file's record lacks the intent_id field, the
run fails before any stage is invoked: the trace holds no stage invocation
and the process exit status is non-zero. -/
theorem C8_missing_intent_id (env : Env) (prog ledger_dir intent_file repo : String)
    (idata : IntentData) (hread : env.intentFile = some idata)
    (hmiss : idata.intent_id = none) :
    stagesOf (runMain env [prog, ledger_dir, intent_file, repo]).trace = [] ∧
    (runMain env [prog, ledger_dir, intent_file, repo]).exitCode ≠ 0 := by
  have hb : mainBody env ledger_dir intent_file repo =
      ⟨[Event.readIntent intent_file], 1, none⟩ := by
    unfold mainBody
    rw [hread]
    simp only [hmiss]
  constructor
  · show stagesOf (Event.mkdir ledger_dir ::
      (mainBody env ledger_dir intent_file repo).trace) = []
    rw [hb]
    rfl
  · show (mainBody env ledger_dir intent_file repo).exitCode ≠ 0
    rw [hb]
    exact Nat.one_ne_zero

/-- The concrete world for the C8 witness: a readable intent file whose
record lacks intent_id. -/
def envC8 : Env where
  stages := fun _ _ => ⟨0, "", ""⟩
  intentFile := some ⟨none⟩
  fs := fun _ => none
  dirs := []

/-- C8 witness at a concrete world and argument vector. -/
theorem C8_missing_intent_id_witness :
    stagesOf (runMain envC8 ["orchestrate_intent.py", "ledger", "intent.json", "repo"]).trace = [] ∧
    (runMain envC8 ["orchestrate_intent.py", "ledger", "intent.json", "repo"]).exitCode ≠ 0 :=
  C8_missing_intent_id envC8 "orchestrate_intent.py" "ledger" "intent.json" "repo"
    ⟨none⟩ rfl rfl

theorem mainBody_stage_failure (env : Env) (ledger_dir intent_file repo : String)
    (pre : List (String × List String)) (name : String) (args : List String)
    (post : List (String × List String))
    (ht : stagesOf (mainBody env ledger_dir intent_file repo).trace =
        pre ++ (name, args) :: post)
    (hrc : (env.stages name args).returncode ≠ 0) :
    post = [] ∧ (mainBody env ledger_dir intent_file repo).exitCode ≠ 0 ∧
      (mainBody env ledger_dir intent_file repo).stageErr =
        some ⟨name, (env.stages name args).stderr⟩ := by
  rcases hif : env.intentFile with _ | idata
  · have hb : mainBody env ledger_dir intent_file repo = ⟨[], 1, none⟩ := by
      unfold mainBody
      rw [hif]
    rw [hb] at ht
    simp [stagesOf] at ht
  · rcases hiid : idata.intent_id with _ | iid
    · have hb : mainBody env ledger_dir intent_file repo =
          ⟨[Event.readIntent intent_file], 1, none⟩ := by
        unfold mainBody
        rw [hif]
        simp [hiid]
      rw [hb] at ht
      simp [stagesOf] at ht
    · rcases h1 : run_entrypoint env.stages "intent_creator.sh" [ledger_dir, intent_file]
        with e1 | o1
      · have hb : mainBody env ledger_dir intent_file repo =
            ⟨[Event.readIntent intent_file,
              Event.stage "intent_creator.sh" [ledger_dir, intent_file]], 1, some e1⟩ := by
          unfold mainBody
          rw [hif]
          simp [hiid, h1]
        rw [hb] at ht ⊢
        simp only [stagesOf, List.filterMap_cons, List.filterMap_nil] at ht
        obtain ⟨hpre, hx, hpost⟩ := append_cons_eq_one pre post _ _ ht.symm
        obtain ⟨hn, ha⟩ := Prod.mk.injEq .. |>.mp hx
        subst hn
        subst ha
        obtain ⟨-, he⟩ := run_entrypoint_err env.stages _ _ e1 h1
        exact ⟨hpost, Nat.one_ne_zero, by rw [he]⟩
      · have hrc1 : (env.stages "intent_creator.sh" [ledger_dir, intent_file]).returncode = 0 :=
          run_entrypoint_ok_rc env.stages _ _ o1 h1
        rcases h2 : run_entrypoint env.stages "planner.sh" [ledger_dir, iid, "bootstrap-planner"]
          with e2 | o2
        · have hb : mainBody env ledger_dir intent_file repo =
              ⟨[Event.readIntent intent_file,
                Event.stage "intent_creator.sh" [ledger_dir, intent_file],
                Event.stage "planner.sh" [ledger_dir, iid, "bootstrap-planner"]],
                1, some e2⟩ := by
            unfold mainBody
            rw [hif]
            simp [hiid, h1, h2]
          rw [hb] at ht ⊢
          simp only [stagesOf, List.filterMap_cons, List.filterMap_nil] at ht
          rcases append_cons_eq_two pre post _ _ _ ht.symm with ⟨-, hx, -⟩ | ⟨-, hx, hpost⟩
          · obtain ⟨hn, ha⟩ := Prod.mk.injEq .. |>.mp hx
            subst hn
            subst ha
            exact absurd hrc1 hrc
          · obtain ⟨hn, ha⟩ := Prod.mk.injEq .. |>.mp hx
            subst hn
            subst ha
            obtain ⟨-, he⟩ := run_entrypoint_err env.stages _ _ e2 h2
            exact ⟨hpost, Nat.one_ne_zero, by rw [he]⟩
        · have hrc2 : (env.stages "planner.sh" [ledger_dir, iid, "bootstrap-planner"]).returncode = 0 :=
            run_entrypoint_ok_rc env.stages _ _ o2 h2
          rcases hsel : select_best_plan env.fs (ledger_dir ++ "/plans.jsonl") iid
            with se | best_plan
          · have hb : mainBody env ledger_dir intent_file repo =
                ⟨[Event.readIntent intent_file,
                  Event.stage "intent_creator.sh" [ledger_dir, intent_file],
                  Event.stage "planner.sh" [ledger_dir, iid, "bootstrap-planner"]],
                  1, none⟩ := by
              unfold mainBody
              rw [hif]
              simp [hiid, h1, h2, hsel]
            rw [hb] at ht ⊢
            simp only [stagesOf, List.filterMap_cons, List.filterMap_nil] at ht
            rcases append_cons_eq_two pre post _ _ _ ht.symm with ⟨-, hx, -⟩ | ⟨-, hx, -⟩ <;>
              obtain ⟨hn, ha⟩ := Prod.mk.injEq .. |>.mp hx <;> subst hn <;> subst ha
            · exact absurd hrc1 hrc
            · exact absurd hrc2 hrc
          · rcases h3 : run_entrypoint env.stages "executor.sh" [ledger_dir, iid, best_plan, repo]
              with e3 | o3
            · have hb : mainBody env ledger_dir intent_file repo =
                  ⟨[Event.readIntent intent_file,
                    Event.stage "intent_creator.sh" [ledger_dir, intent_file],
                    Event.stage "planner.sh" [ledger_dir, iid, "bootstrap-planner"],
                    Event.stage "executor.sh" [ledger_dir, iid, best_plan, repo]],
                    1, some e3⟩ := by
                unfold mainBody
                rw [hif]
                simp [hiid, h1, h2, hsel, h3]
              rw [hb] at ht ⊢
              simp only [stagesOf, List.filterMap_cons, List.filterMap_nil] at ht
              rcases append_cons_eq_three pre post _ _ _ _ ht.symm with
                ⟨-, hx, -⟩ | ⟨-, hx, -⟩ | ⟨-, hx, hpost⟩
              · obtain ⟨hn, ha⟩ := Prod.mk.injEq .. |>.mp hx
                subst hn
                subst ha
                exact absurd hrc1 hrc
              · obtain ⟨hn, ha⟩ := Prod.mk.injEq .. |>.mp hx
                subst hn
                subst ha
                exact absurd hrc2 hrc
              · obtain ⟨hn, ha⟩ := Prod.mk.injEq .. |>.mp hx
                subst hn
                subst ha
                obtain ⟨-, he⟩ := run_entrypoint_err env.stages _ _ e3 h3
                exact ⟨hpost, Nat.one_ne_zero, by rw [he]⟩
            · have hrc3 : (env.stages "executor.sh" [ledger_dir, iid, best_plan, repo]).returncode = 0 :=
                run_entrypoint_ok_rc env.stages _ _ o3 h3
              have hb : mainBody env ledger_dir intent_file repo =
                  ⟨[Event.readIntent intent_file,
                    Event.stage "intent_creator.sh" [ledger_dir, intent_file],
                    Event.stage "planner.sh" [ledger_dir, iid, "bootstrap-planner"],
                    Event.stage "executor.sh" [ledger_dir, iid, best_plan, repo]],
                    0, none⟩ := by
                unfold mainBody
                rw [hif]
                simp [hiid, h1, h2, hsel, h3]
              rw [hb] at ht
              simp only [stagesOf, List.filterMap_cons, List.filterMap_nil] at ht
              rcases append_cons_eq_three pre post _ _ _ _ ht.symm with
                ⟨-, hx, -⟩ | ⟨-, hx, -⟩ | ⟨-, hx, -⟩ <;>
                obtain ⟨hn, ha⟩ := Prod.mk.injEq .. |>.mp hx <;> subst hn <;> subst ha
              · exact absurd hrc1 hrc
              · exact absurd hrc2 hrc
              · exact absurd hrc3 hrc

/-- C6: every stage invocation of a run whose external process exits with a
non-zero status is the last stage invocation of the run (no subsequent
stage is invoked), the run surfaces the stage failure carrying the captured
error output, and the process exit status is non-zero. -/
theorem C6_stage_failure_halts (env : Env) (prog ledger_dir intent_file repo : String)
    (pre : List (String × List String)) (name : String) (args : List String)
    (post : List (String × List String))
    (ht : stagesOf (runMain env [prog, ledger_dir, intent_file, repo]).trace =
        pre ++ (name, args) :: post)
    (hrc : (env.stages name args).returncode ≠ 0) :
    post = [] ∧ (runMain env [prog, ledger_dir, intent_file, repo]).exitCode ≠ 0 ∧
      (runMain env [prog, ledger_dir, intent_file, repo]).stageErr =
        some ⟨name, (env.stages name args).stderr⟩ := by
  have hlift : stagesOf (runMain env [prog, ledger_dir, intent_file, repo]).trace =
      stagesOf (mainBody env ledger_dir intent_file repo).trace := rfl
  rw [hlift] at ht
  exact mainBody_stage_failure env ledger_dir intent_file repo pre name args post ht hrc

/-- The concrete world for the C6 witness: the planner stage fails with
exit status 1 and diagnostic text on stderr. -/
def envC6 : Env where
  stages := fun n _ =>
    if n = "planner.sh" then ⟨1, "", "planner exploded"⟩ else ⟨0, "done", ""⟩
  intentFile := some ⟨some "i1"⟩
  fs := fun _ => none
  dirs := []

/-- C6 witness: in that world the planner invocation is the last stage of
the trace, the run exits non-zero, and the surfaced failure carries the
captured stderr. -/
theorem C6_stage_failure_halts_witness :
    ([] : List (String × List String)) = [] ∧
    (runMain envC6 ["orchestrate_intent.py", "ledger", "intent.json", "repo"]).exitCode ≠ 0 ∧
    (runMain envC6 ["orchestrate_intent.py", "ledger", "intent.json", "repo"]).stageErr =
      some ⟨"planner.sh",
        (envC6.stages "planner.sh" ["ledger", "i1", "bootstrap-planner"]).stderr⟩ :=
  C6_stage_failure_halts envC6 "orchestrate_intent.py" "ledger" "intent.json" "repo"
    [("intent_creator.sh", ["ledger", "intent.json"])] "planner.sh"
    ["ledger", "i1", "bootstrap-planner"] [] (by rfl) (by decide)

end OrchestrateIntent
